import Mathlib

/-!
Verification of the cachemap repository: an insert-only map for caching the
result of functions. Two source variants are modelled:

* `src/hashmap_impl.rs` — `CacheMap<K, V>` wrapping `Mutex<HashMap<K, Box<V>>>`,
  with `cache`, `cache_default`, `contains_key`, `from_iter`, the borrowing
  iterator `Iter` and the consuming iterator `IntoIter`;
* `src/lib.rs` — `CacheMap<K, V>` wrapping `DashMap<K, Arc<V>>`, with
  `cache_arc` and `cache` (defined as `cache_arc` with the value wrapped in
  `Arc::new`).

The backing hash map is modelled as a list of key/value entries (iteration
order of a hash map is unspecified; the list fixes one order). `Box<V>` and
`Arc<V>` are modelled by `V` itself: a box or reference-counted cell holding a
value, observed only through dereferencing. The mutex serialises every
`cache` / `cache_arc` / `contains_key` call (the factory runs while the lock
is held), so a concurrent execution of such calls is an interleaving of atomic
calls, i.e. a sequence of calls; traces of calls model that.
-/

set_option autoImplicit false

namespace CacheMap

variable {K V : Type} [DecidableEq K]

/-- The backing `HashMap<K, BoxImpl<V>>` (hashmap_impl.rs line 62), as a list
of entries. -/
abbrev Map (K V : Type) := List (K × V)

/-- `HashMap::get` / the lookup done by the `entry` API: the value associated
with `k`, if present. -/
def lookup : Map K V → K → Option V
  | [], _ => none
  | p :: rest, k => if p.1 = k then some p.2 else lookup rest k

/-- `CacheMap::contains_key` (hashmap_impl.rs lines 173-179): locks the map
and asks the backing `HashMap` whether the key is present. -/
def contains_key (m : Map K V) (k : K) : Bool :=
  (lookup m k).isSome

/-- `CacheMap::new` / `Default` (hashmap_impl.rs lines 65-71, 189-194): the
empty map. -/
def new : Map K V := []

/-- `box_into_inner_impl` (hashmap_impl.rs lines 12-14): `Box` dereference,
identity on the modelled value. -/
def box_into_inner_impl (v : V) : V := v

/-- `CacheMap::cache` (hashmap_impl.rs lines 152-162): lock the map, run the
`entry(key).or_insert_with(|| BoxImpl::new(f()))` protocol, and return a
reference to the stored value. Result: the returned value, the map after the
call, and whether the factory `f` was invoked. -/
def cache (m : Map K V) (k : K) (f : Unit → V) : V × Map K V × Bool :=
  match lookup m k with
  | some v => (v, m, false)
  | none =>
    let v := f ()
    (v, m ++ [(k, v)], true)

/-- `CacheMap::cache_default` (hashmap_impl.rs lines 165-170):
`self.cache(key, || Default::default())`. -/
def cache_default [Inhabited V] (m : Map K V) (k : K) : V × Map K V × Bool :=
  cache m k (fun _ => (default : V))

/-- Modelled from the spec: `cache_default` as §4.2 and §6 of the spec
describe it — "identical protocol with the factory fixed to produce the
type's default value": return the existing value if the key is present,
otherwise insert and return the default value. For comparison with the
source definition `cache_default`. -/
def cache_default_spec [Inhabited V] (m : Map K V) (k : K) : V × Map K V × Bool :=
  match lookup m k with
  | some v => (v, m, false)
  | none => ((default : V), m ++ [(k, (default : V))], true)

/-- `HashMap::insert` as used by `collect` inside `from_iter`: overwrite the
entry if the key is present, otherwise append a new entry. -/
def hashmap_insert (m : Map K V) (k : K) (v : V) : Map K V :=
  if contains_key m k then
    m.map (fun p => if p.1 = k then (k, v) else p)
  else
    m ++ [(k, v)]

/-- `CacheMap::from_iter` (hashmap_impl.rs lines 73-86): box each value and
`collect` the pairs into the backing `HashMap`, which inserts them in order. -/
def from_iter (l : List (K × V)) : Map K V :=
  l.foldl (fun m p => hashmap_insert m p.1 p.2) []

/-- The value of the last pair in `l` whose key is `k`, if any: the value a
`HashMap` built by inserting the pairs of `l` in order associates with `k`. -/
def lastVal : List (K × V) → K → Option V
  | [], _ => none
  | p :: rest, k =>
    match lastVal rest k with
    | some v => some v
    | none => if p.1 = k then some p.2 else none

/-- `Iter::next` (hashmap_impl.rs lines 112-118) drives the borrowing
iterator: each underlying entry `(k, boxed v)` is yielded as
`(t.0, t.1.as_ref())`. The full yielded sequence. -/
def iterEntries (m : Map K V) : List (K × V) :=
  m.map (fun p => (p.1, p.2))

/-- `IntoIter::next` (hashmap_impl.rs lines 90-96) drives the consuming
iterator obtained from `into_iter` (lines 98-105): each underlying entry is
yielded as `(t.0, box_into_inner_impl(t.1))`. The full yielded sequence. -/
def intoIterEntries (m : Map K V) : List (K × V) :=
  m.map (fun p => (p.1, box_into_inner_impl p.2))

/-- One call `cache(k, f)` waiting to run: a key and a factory. -/
abbrev Call (K V : Type) := K × (Unit → V)

/-- Run a sequence of `cache` calls (each atomic under the mutex) and return
the final map. -/
def runTrace (m : Map K V) : List (Call K V) → Map K V
  | [] => m
  | c :: rest => runTrace (cache m c.1 c.2).2.1 rest

/-- Run a sequence of `cache` calls and collect the returned values together
with the final map. -/
def runResults (m : Map K V) : List (Call K V) → List V × Map K V
  | [] => ([], m)
  | c :: rest =>
    let r := cache m c.1 c.2
    let rr := runResults r.2.1 rest
    (r.1 :: rr.1, rr.2)

/-- How many times a factory is invoked for key `k` over a sequence of
`cache` calls: the shared counter of spec §8 property 3. -/
def invokedCountFor (m : Map K V) (k : K) : List (Call K V) → Nat
  | [] => 0
  | c :: rest =>
    let r := cache m c.1 c.2
    (if c.1 = k ∧ r.2.2 = true then 1 else 0) + invokedCountFor r.2.1 k rest

/-- Turn a list of pairs into the corresponding constant-factory `cache`
calls. -/
def mkCalls (l : List (K × V)) : List (Call K V) :=
  l.map (fun p => (p.1, fun _ => p.2))

end CacheMap

namespace CacheMap.Lib

variable {K V : Type} [DecidableEq K]

/-- `CacheMap::cache_arc` (lib.rs lines 101-108): `Arc<V>`-valued get-or-insert
on the `DashMap`, `self.inner.entry(key).or_insert_with(f)`, returning a
handle to the stored `Arc`. `Arc<V>` is modelled by `V`. -/
def cache_arc (m : Map K V) (k : K) (f : Unit → V) : V × Map K V × Bool :=
  match lookup m k with
  | some v => (v, m, false)
  | none =>
    let v := f ()
    (v, m ++ [(k, v)], true)

/-- `CacheMap::cache` (lib.rs lines 65-67):
`self.cache_arc(key, || Arc::new(f()))`, with `Arc::new` the identity on the
modelled value. -/
def cache (m : Map K V) (k : K) (f : Unit → V) : V × Map K V × Bool :=
  cache_arc m k (fun _ => f ())

end CacheMap.Lib

namespace CacheMap.Poison

variable {K V : Type} [DecidableEq K]

/-- The `Mutex<HashMap<..>>` of hashmap_impl.rs together with its poison
flag: `std::sync::Mutex` is poisoned when a panic unwinds while the guard is
held. -/
structure MState (K V : Type) where
  map : Map K V
  poisoned : Bool

/-- `CacheMap::cache` with a factory that may panic, on the poisonable state.
`mutex_lock_impl` (hashmap_impl.rs lines 16-18) is `m.lock().unwrap()`: on a
poisoned mutex it panics at once. Otherwise
`entry(key).or_insert_with(|| BoxImpl::new(f()))` runs with the guard held:
if the key is present `f` does not run; if `f` returns a value it is
inserted; if `f` panics nothing is inserted, the panic unwinds through the
guard — poisoning the mutex — and propagates to the caller. Panics are
modelled as `Except.error`. -/
def cacheE (s : MState K V) (k : K) (f : Unit → Except String V) :
    Except String V × MState K V :=
  if s.poisoned then
    (Except.error "PoisonError", s)
  else
    match lookup s.map k with
    | some v => (Except.ok v, s)
    | none =>
      match f () with
      | Except.ok v => (Except.ok v, ⟨s.map ++ [(k, v)], false⟩)
      | Except.error e => (Except.error e, ⟨s.map, true⟩)

/-- `CacheMap::contains_key` on the poisonable state: `m.lock().unwrap()`
panics if the mutex is poisoned, otherwise answers from the map. -/
def contains_keyE (s : MState K V) (k : K) : Except String Bool × MState K V :=
  if s.poisoned then
    (Except.error "PoisonError", s)
  else
    (Except.ok (contains_key s.map k), s)

end CacheMap.Poison

namespace CacheMap

variable {K V : Type} [DecidableEq K]

lemma lib_cache_arc_eq (m : Map K V) (k : K) (f : Unit → V) :
    Lib.cache_arc m k f = cache m k f := rfl

lemma lib_cache_eq (m : Map K V) (k : K) (f : Unit → V) :
    Lib.cache m k f = cache m k f := rfl

lemma contains_key_eq_false_iff (m : Map K V) (k : K) :
    contains_key m k = false ↔ lookup m k = none := by
  unfold contains_key
  cases lookup m k <;> simp

lemma contains_key_eq_true_iff (m : Map K V) (k : K) :
    contains_key m k = true ↔ ∃ v, lookup m k = some v := by
  unfold contains_key
  cases lookup m k <;> simp

lemma cache_present {m : Map K V} {k : K} {v : V} (f : Unit → V)
    (h : lookup m k = some v) : cache m k f = (v, m, false) := by
  unfold cache
  rw [h]

lemma cache_absent {m : Map K V} {k : K} (f : Unit → V)
    (h : lookup m k = none) : cache m k f = (f (), m ++ [(k, f ())], true) := by
  unfold cache
  rw [h]

lemma lookup_nil (k : K) : lookup ([] : Map K V) k = none := rfl

lemma lookup_cons (p : K × V) (rest : Map K V) (k : K) :
    lookup (p :: rest) k = if p.1 = k then some p.2 else lookup rest k := rfl

lemma lookup_append_some {m : Map K V} {k : K} {v : V} (l : Map K V)
    (h : lookup m k = some v) : lookup (m ++ l) k = some v := by
  induction m with
  | nil => simp [lookup] at h
  | cons p rest ih =>
    rw [List.cons_append, lookup_cons]
    rw [lookup_cons] at h
    by_cases hp : p.1 = k
    · rw [if_pos hp] at h ⊢
      exact h
    · rw [if_neg hp] at h ⊢
      exact ih h

lemma lookup_append_none {m : Map K V} {k : K} (l : Map K V)
    (h : lookup m k = none) : lookup (m ++ l) k = lookup l k := by
  induction m with
  | nil => simp
  | cons p rest ih =>
    rw [List.cons_append, lookup_cons]
    rw [lookup_cons] at h
    by_cases hp : p.1 = k
    · rw [if_pos hp] at h
      exact absurd h (by simp)
    · rw [if_neg hp] at h ⊢
      exact ih h

lemma lookup_singleton_self (k : K) (v : V) :
    lookup [(k, v)] k = some v := by
  simp [lookup]

lemma lookup_singleton_other {k k' : K} (v : V) (h : k ≠ k') :
    lookup [(k, v)] k' = none := by
  simp [lookup, h]

/-- After `cache`, looking up the key finds exactly the returned value. -/
lemma lookup_cache_self (m : Map K V) (k : K) (f : Unit → V) :
    lookup (cache m k f).2.1 k = some (cache m k f).1 := by
  cases h : lookup m k with
  | some v => rw [cache_present f h]; exact h
  | none =>
    rw [cache_absent f h]
    simp only
    rw [lookup_append_none _ h]
    exact lookup_singleton_self k (f ())

/-- `cache` never changes an entry that is already present. -/
lemma lookup_cache_preserve {m : Map K V} {k : K} {v : V} (k' : K) (f : Unit → V)
    (h : lookup m k = some v) : lookup (cache m k' f).2.1 k = some v := by
  cases h' : lookup m k' with
  | some w => rw [cache_present f h']; exact h
  | none =>
    rw [cache_absent f h']
    exact lookup_append_some _ h

/-- `cache` on a different key leaves a key's association unchanged. -/
lemma lookup_cache_other {m : Map K V} {k k' : K} (f : Unit → V)
    (h : k' ≠ k) : lookup (cache m k' f).2.1 k = lookup m k := by
  cases h' : lookup m k' with
  | some w => rw [cache_present f h']
  | none =>
    rw [cache_absent f h']
    simp only
    cases hk : lookup m k with
    | some v => exact lookup_append_some _ hk
    | none =>
      rw [lookup_append_none _ hk]
      exact lookup_singleton_other _ h

/-- The invocation flag of `cache`: the factory runs exactly when the key is
absent. -/
lemma cache_invoked (m : Map K V) (k : K) (f : Unit → V) :
    (cache m k f).2.2 = !(contains_key m k) := by
  unfold contains_key
  cases h : lookup m k with
  | some v => rw [cache_present f h]; rfl
  | none => rw [cache_absent f h]; rfl

lemma contains_key_cache_mono {m : Map K V} {k : K} (k' : K) (f : Unit → V)
    (h : contains_key m k = true) :
    contains_key (cache m k' f).2.1 k = true := by
  rw [contains_key_eq_true_iff] at h ⊢
  obtain ⟨v, hv⟩ := h
  exact ⟨v, lookup_cache_preserve k' f hv⟩

lemma contains_key_cache_self (m : Map K V) (k : K) (f : Unit → V) :
    contains_key (cache m k f).2.1 k = true := by
  rw [contains_key_eq_true_iff]
  exact ⟨(cache m k f).1, lookup_cache_self m k f⟩

lemma runTrace_nil (m : Map K V) : runTrace m [] = m := rfl

lemma runTrace_cons (m : Map K V) (c : Call K V) (rest : List (Call K V)) :
    runTrace m (c :: rest) = runTrace (cache m c.1 c.2).2.1 rest := rfl

lemma runResults_nil (m : Map K V) : runResults m [] = ([], m) := rfl

lemma runResults_cons (m : Map K V) (c : Call K V) (rest : List (Call K V)) :
    runResults m (c :: rest) =
      ((cache m c.1 c.2).1 :: (runResults (cache m c.1 c.2).2.1 rest).1,
       (runResults (cache m c.1 c.2).2.1 rest).2) := rfl

lemma invokedCountFor_nil (m : Map K V) (k : K) : invokedCountFor m k [] = 0 := rfl

lemma invokedCountFor_cons (m : Map K V) (k : K) (c : Call K V)
    (rest : List (Call K V)) :
    invokedCountFor m k (c :: rest) =
      (if c.1 = k ∧ (cache m c.1 c.2).2.2 = true then 1 else 0) +
        invokedCountFor (cache m c.1 c.2).2.1 k rest := rfl

/-- A value once cached survives any further sequence of calls. -/
lemma lookup_runTrace_preserve {m : Map K V} {k : K} {v : V}
    (trace : List (Call K V)) (h : lookup m k = some v) :
    lookup (runTrace m trace) k = some v := by
  induction trace generalizing m with
  | nil => exact h
  | cons c rest ih =>
    rw [runTrace_cons]
    exact ih (lookup_cache_preserve c.1 c.2 h)

/-- Calls on other keys leave a key's association untouched. -/
lemma lookup_runTrace_other {m : Map K V} {k : K} (trace : List (Call K V))
    (h : ∀ c ∈ trace, c.1 ≠ k) :
    lookup (runTrace m trace) k = lookup m k := by
  induction trace generalizing m with
  | nil => rfl
  | cons c rest ih =>
    rw [runTrace_cons]
    rw [ih (fun c' hc' => h c' (List.mem_cons_of_mem _ hc'))]
    exact lookup_cache_other c.2 (h c (List.mem_cons_self _ _))

/-- Once the key is present, no later call invokes a factory for it. -/
lemma invokedCountFor_eq_zero {m : Map K V} {k : K} (trace : List (Call K V))
    (h : contains_key m k = true) :
    invokedCountFor m k trace = 0 := by
  induction trace generalizing m with
  | nil => rfl
  | cons c rest ih =>
    rw [invokedCountFor_cons]
    have hcond : ¬(c.1 = k ∧ (cache m c.1 c.2).2.2 = true) := by
      rintro ⟨hk, hflag⟩
      rw [cache_invoked, hk, h] at hflag
      simp at hflag
    rw [if_neg hcond, ih (contains_key_cache_mono c.1 c.2 h)]

/-- Over any sequence of calls, the factory for a given key runs at most
once. -/
lemma invokedCountFor_le_one (m : Map K V) (k : K) (trace : List (Call K V)) :
    invokedCountFor m k trace ≤ 1 := by
  induction trace generalizing m with
  | nil => exact Nat.zero_le 1
  | cons c rest ih =>
    rw [invokedCountFor_cons]
    by_cases hcond : c.1 = k ∧ (cache m c.1 c.2).2.2 = true
    · rw [if_pos hcond]
      have hk : contains_key (cache m c.1 c.2).2.1 k = true := by
        rw [← hcond.1]
        exact contains_key_cache_self m c.1 c.2
      rw [invokedCountFor_eq_zero rest hk]
    · rw [if_neg hcond]
      simpa using ih (m := (cache m c.1 c.2).2.1)

/-- Every result of repeated `cache` calls for a key already associated with
`v` is `v`. -/
lemma runResults_replicate_eq {m : Map K V} {k : K} {v : V} (f : Unit → V)
    (n : Nat) (h : lookup m k = some v) :
    ∀ w ∈ (runResults m (List.replicate n (k, f))).1, w = v := by
  induction n generalizing m with
  | zero => intro w hw; simp [runResults_nil] at hw
  | succ n ih =>
    intro w hw
    rw [List.replicate_succ, runResults_cons] at hw
    rcases List.mem_cons.mp hw with hw | hw
    · rw [hw, cache_present f h]
    · exact ih (lookup_cache_preserve k f h) w hw

/-- Running the calls built from a list of pairs with fresh, pairwise
distinct keys appends exactly those pairs. -/
lemma runTrace_mkCalls {m : Map K V} {l : List (K × V)}
    (habs : ∀ p ∈ l, lookup m p.1 = none)
    (hnd : (l.map Prod.fst).Nodup) :
    runTrace m (mkCalls l) = m ++ l := by
  induction l generalizing m with
  | nil => simp [mkCalls, runTrace_nil]
  | cons p rest ih =>
    obtain ⟨a, b⟩ := p
    rw [List.map_cons, List.nodup_cons] at hnd
    obtain ⟨ha, hnd'⟩ := hnd
    have h1 : lookup m a = none := habs (a, b) (List.mem_cons_self _ _)
    have hstep : (cache m a (fun _ => b)).2.1 = m ++ [(a, b)] := by
      rw [cache_absent _ h1]
    rw [show mkCalls ((a, b) :: rest) = (a, fun _ => b) :: mkCalls rest from rfl,
      runTrace_cons]
    simp only at hstep
    rw [hstep]
    have habs' : ∀ q ∈ rest, lookup (m ++ [(a, b)]) q.1 = none := by
      intro q hq
      rw [lookup_append_none _ (habs q (List.mem_cons_of_mem _ hq))]
      refine lookup_singleton_other _ (fun heq => ha ?_)
      exact List.mem_map.mpr ⟨q, hq, heq.symm⟩
    rw [ih habs' hnd']
    simp

omit [DecidableEq K] in
lemma iterEntries_eq (m : Map K V) : iterEntries m = m := by
  simp [iterEntries]

omit [DecidableEq K] in
lemma intoIterEntries_eq (m : Map K V) : intoIterEntries m = m := by
  simp [intoIterEntries, box_into_inner_impl]

lemma lookup_eq_none_iff (m : Map K V) (k : K) :
    lookup m k = none ↔ k ∉ m.map Prod.fst := by
  induction m with
  | nil => simp [lookup]
  | cons p rest ih =>
    rw [lookup_cons, List.map_cons, List.mem_cons]
    by_cases hp : p.1 = k
    · simp [hp]
    · simp only [if_neg hp, ih]
      constructor
      · rintro hnone (h | h)
        · exact hp h.symm
        · exact hnone h
      · intro h
        exact fun hmem => h (Or.inr hmem)

lemma lookup_replace_ne {k k' : K} (m : Map K V) (v : V) (hne : k ≠ k') :
    lookup (m.map (fun p => if p.1 = k then (k, v) else p)) k' = lookup m k' := by
  induction m with
  | nil => rfl
  | cons p rest ih =>
    rw [List.map_cons, lookup_cons, lookup_cons]
    by_cases hp : p.1 = k
    · rw [if_pos hp]
      have h1 : ((k, v) : K × V).1 = k' ↔ False := by simp [hne]
      have h2 : ¬p.1 = k' := by rw [hp]; exact hne
      rw [if_neg (by simpa using hne), if_neg h2]
      exact ih
    · rw [if_neg hp]
      by_cases hp' : p.1 = k'
      · rw [if_pos hp', if_pos hp']
      · rw [if_neg hp', if_neg hp']
        exact ih

lemma lookup_replace_self {k : K} (m : Map K V) (v : V)
    (hc : contains_key m k = true) :
    lookup (m.map (fun p => if p.1 = k then (k, v) else p)) k = some v := by
  induction m with
  | nil => simp [contains_key, lookup] at hc
  | cons p rest ih =>
    rw [List.map_cons, lookup_cons]
    by_cases hp : p.1 = k
    · rw [if_pos hp]
      simp
    · rw [if_neg hp, if_neg hp]
      apply ih
      rw [contains_key_eq_true_iff] at hc ⊢
      obtain ⟨w, hw⟩ := hc
      rw [lookup_cons, if_neg hp] at hw
      exact ⟨w, hw⟩

/-- The characteristic equation of `HashMap::insert`. -/
lemma lookup_hashmap_insert (m : Map K V) (k k' : K) (v : V) :
    lookup (hashmap_insert m k v) k' = if k = k' then some v else lookup m k' := by
  unfold hashmap_insert
  by_cases hc : contains_key m k
  · rw [if_pos hc]
    by_cases hk : k = k'
    · rw [if_pos hk, ← hk]
      exact lookup_replace_self m v hc
    · rw [if_neg hk]
      exact lookup_replace_ne m v hk
  · rw [if_neg hc]
    have hnone : lookup m k = none := by
      rw [← contains_key_eq_false_iff]
      exact Bool.not_eq_true _ ▸ (by simpa using hc)
    by_cases hk : k = k'
    · rw [if_pos hk, ← hk, lookup_append_none _ hnone]
      exact lookup_singleton_self k v
    · rw [if_neg hk]
      cases hk' : lookup m k' with
      | some w => exact lookup_append_some _ hk'
      | none =>
        rw [lookup_append_none _ hk']
        exact lookup_singleton_other _ hk

lemma keys_hashmap_insert (m : Map K V) (k : K) (v : V) :
    (hashmap_insert m k v).map Prod.fst =
      if contains_key m k then m.map Prod.fst else m.map Prod.fst ++ [k] := by
  unfold hashmap_insert
  by_cases hc : contains_key m k
  · rw [if_pos hc, if_pos hc, List.map_map]
    refine List.map_congr_left (fun p _ => ?_)
    by_cases hp : p.1 = k
    · simp [hp]
    · simp [hp]
  · rw [if_neg hc, if_neg hc]
    simp

lemma keys_nodup_hashmap_insert {m : Map K V} (k : K) (v : V)
    (h : (m.map Prod.fst).Nodup) :
    ((hashmap_insert m k v).map Prod.fst).Nodup := by
  rw [keys_hashmap_insert]
  by_cases hc : contains_key m k
  · rw [if_pos hc]
    exact h
  · rw [if_neg hc]
    have hk : k ∉ m.map Prod.fst := by
      rw [← lookup_eq_none_iff, ← contains_key_eq_false_iff]
      simpa using hc
    refine List.Nodup.append h (List.nodup_singleton k) ?_
    intro a ha ha'
    rw [List.mem_singleton] at ha'
    exact hk (ha' ▸ ha)

lemma from_iter_aux_keys_nodup (l : List (K × V)) (m : Map K V)
    (h : (m.map Prod.fst).Nodup) :
    ((l.foldl (fun m p => hashmap_insert m p.1 p.2) m).map Prod.fst).Nodup := by
  induction l generalizing m with
  | nil => exact h
  | cons p rest ih =>
    rw [List.foldl_cons]
    exact ih _ (keys_nodup_hashmap_insert p.1 p.2 h)

lemma lastVal_nil (k : K) : lastVal ([] : List (K × V)) k = none := rfl

lemma lastVal_cons (p : K × V) (rest : List (K × V)) (k : K) :
    lastVal (p :: rest) k =
      match lastVal rest k with
      | some v => some v
      | none => if p.1 = k then some p.2 else none := rfl

lemma lookup_foldl_insert (l : List (K × V)) (m : Map K V) (k : K) :
    lookup (l.foldl (fun m p => hashmap_insert m p.1 p.2) m) k =
      match lastVal l k with
      | some v => some v
      | none => lookup m k := by
  induction l generalizing m with
  | nil => rfl
  | cons p rest ih =>
    rw [List.foldl_cons, ih, lastVal_cons]
    cases lastVal rest k with
    | some v => rfl
    | none =>
      simp only
      rw [lookup_hashmap_insert]
      by_cases hp : p.1 = k
      · rw [if_pos hp, if_pos hp]
      · rw [if_neg hp, if_neg hp]

lemma lookup_from_iter (l : List (K × V)) (k : K) :
    lookup (from_iter l) k = lastVal l k := by
  unfold from_iter
  rw [lookup_foldl_insert]
  cases lastVal l k with
  | some v => rfl
  | none => rfl

lemma lastVal_eq_none_iff (l : List (K × V)) (k : K) :
    lastVal l k = none ↔ k ∉ l.map Prod.fst := by
  induction l with
  | nil => simp [lastVal_nil]
  | cons p rest ih =>
    rw [lastVal_cons, List.map_cons, List.mem_cons]
    cases h : lastVal rest k with
    | some v =>
      have hmem : k ∈ rest.map Prod.fst := by
        by_contra hk
        rw [ih.mpr hk] at h
        exact Option.noConfusion h
      simp [hmem]
    | none =>
      have hnot : k ∉ rest.map Prod.fst := ih.mp h
      by_cases hp : p.1 = k
      · simp [hp]
      · have : ¬k = p.1 := fun hk => hp hk.symm
        simp [hp, this, hnot]

lemma cacheE_locked {s : Poison.MState K V} (k : K)
    (f : Unit → Except String V) (h : s.poisoned = true) :
    Poison.cacheE s k f = (Except.error "PoisonError", s) := by
  unfold Poison.cacheE
  rw [h]
  rfl

lemma contains_keyE_locked {s : Poison.MState K V} (k : K)
    (h : s.poisoned = true) :
    Poison.contains_keyE s k = (Except.error "PoisonError", s) := by
  unfold Poison.contains_keyE
  rw [h]
  rfl

lemma cacheE_panic {s : Poison.MState K V} {k : K} {e : String}
    {f : Unit → Except String V} (hp : s.poisoned = false)
    (h : lookup s.map k = none) (hf : f () = Except.error e) :
    Poison.cacheE s k f = (Except.error e, ⟨s.map, true⟩) := by
  unfold Poison.cacheE
  rw [hp, h, hf]
  rfl

/-- Claim C1: for a key `k` not yet cached, calling `cache(k, f1)` and then
`cache(k, f2)` on the same map returns handles whose dereferenced values are
equal, both equal to the result of `f1` and never to the result of `f2`
(whose factory is not even invoked); likewise for the `lib.rs` variant
`cache` built on `cache_arc`. -/
theorem claim1_idempotent_population (m : Map K V) (k : K) (f1 f2 : Unit → V)
    (h : contains_key m k = false) :
    (cache (cache m k f1).2.1 k f2).1 = (cache m k f1).1 ∧
    (cache m k f1).1 = f1 () ∧
    (cache (cache m k f1).2.1 k f2).2.2 = false ∧
    (Lib.cache (Lib.cache m k f1).2.1 k f2).1 = (Lib.cache m k f1).1 ∧
    (Lib.cache m k f1).1 = f1 () := by
  rw [contains_key_eq_false_iff] at h
  have h2 := cache_present f2 (lookup_cache_self m k f1)
  refine ⟨?_, ?_, ?_, ?_, ?_⟩
  · rw [h2]
  · rw [cache_absent f1 h]
  · rw [h2]
  · simp only [lib_cache_eq]
    rw [h2]
  · rw [lib_cache_eq, cache_absent f1 h]

/-- Claim C2: the mutex (resp. the dashmap shard lock) is held across the
whole `entry(key).or_insert_with(..)` step, so each `cache` call is atomic
and a race of N concurrent callers executes as N sequential calls in some
order. For any N ≥ 1 sequential calls `cache(k, f)` on a map in which `k` is
absent, the factory runs exactly once (a shared counter incremented by `f`
ends at 1) and every returned handle carries the same stored value,
`f ()`. -/
theorem claim2_single_evaluation_under_race (m : Map K V) (k : K)
    (f : Unit → V) (n : Nat) (h : contains_key m k = false) (hn : 1 ≤ n) :
    invokedCountFor m k (List.replicate n (k, f)) = 1 ∧
    ∀ w ∈ (runResults m (List.replicate n (k, f))).1, w = f () := by
  have hl : lookup m k = none := (contains_key_eq_false_iff m k).mp h
  obtain ⟨n, rfl⟩ : ∃ n', n = n' + 1 :=
    ⟨n - 1, (Nat.succ_pred_eq_of_pos hn).symm⟩
  have h1 : (cache m k f).1 = f () := by rw [cache_absent f hl]
  have hself := lookup_cache_self m k f
  rw [h1] at hself
  constructor
  · rw [List.replicate_succ, invokedCountFor_cons]
    have hflag : (cache m k f).2.2 = true := by
      rw [cache_invoked, h]
      rfl
    rw [if_pos ⟨rfl, hflag⟩,
      invokedCountFor_eq_zero _ (contains_key_cache_self m k f)]
  · rw [List.replicate_succ, runResults_cons]
    intro w hw
    rcases List.mem_cons.mp hw with hw | hw
    · rw [hw, h1]
    · exact runResults_replicate_eq f n hself w hw

/-- Claim C3: a handle obtained from `cache(k1, f)` still dereferences to
its original, unchanged value after any further sequence of `cache` calls
on keys distinct from `k1`, for as long as the map is alive: the entry for
`k1` after the extra calls is exactly the value the handle was returned
for. -/
theorem claim3_handle_stability (m : Map K V) (k1 : K) (f : Unit → V)
    (trace : List (Call K V)) (h : ∀ c ∈ trace, c.1 ≠ k1) :
    lookup (runTrace (cache m k1 f).2.1 trace) k1 = some ((cache m k1 f).1) := by
  rw [lookup_runTrace_other trace h]
  exact lookup_cache_self m k1 f

/-- Claim C4: the factory of `cache` (and of the `lib.rs` `cache_arc`) is
invoked exactly when the key is absent at the moment of the call, and over
any sequence of calls the factories supplied for a given key are evaluated
at most once in total. -/
theorem claim4_factory_iff_absent (m : Map K V) (k : K) (f : Unit → V)
    (trace : List (Call K V)) :
    (cache m k f).2.2 = !(contains_key m k) ∧
    (Lib.cache_arc m k f).2.2 = !(contains_key m k) ∧
    invokedCountFor m k trace ≤ 1 :=
  ⟨cache_invoked m k f,
   by rw [lib_cache_arc_eq]; exact cache_invoked m k f,
   invokedCountFor_le_one m k trace⟩

/-- Claim C5: a `cache` call on key `a` leaves the association of every
other key `b` unchanged, in both the hashmap_impl.rs and lib.rs variants. -/
theorem claim5_key_isolation (m : Map K V) (a b : K) (f : Unit → V)
    (h : a ≠ b) :
    lookup (cache m a f).2.1 b = lookup m b ∧
    lookup (Lib.cache m a f).2.1 b = lookup m b :=
  ⟨lookup_cache_other f h, by rw [lib_cache_eq]; exact lookup_cache_other f h⟩

/-- Claim C6: `contains_key k` is false on a map on which no `cache(k, _)`
call has occurred — in particular on `new()` and after any calls on other
keys — and is true immediately after any `cache(k, f)` call completes. -/
theorem claim6_contains_key_consistency (k : K) (f : Unit → V) (m : Map K V)
    (trace : List (Call K V)) (h : ∀ c ∈ trace, c.1 ≠ k) :
    contains_key (runTrace new trace) k = false ∧
    contains_key (cache m k f).2.1 k = true := by
  constructor
  · rw [contains_key_eq_false_iff, lookup_runTrace_other trace h]
    rfl
  · exact contains_key_cache_self m k f

/-- Claim C7: after inserting a finite list of pairs with pairwise distinct
keys via `cache`, the borrowing iterator (`Iter::next`) yields exactly that
set of pairs — a permutation of the input, hence no duplicates and no
omissions — and the consuming iterator (`IntoIter::next` after `into_iter`
takes ownership of the map) yields the same set. -/
theorem claim7_iteration_completeness (l : List (K × V))
    (h : (l.map Prod.fst).Nodup) :
    List.Perm (iterEntries (runTrace new (mkCalls l))) l ∧
    intoIterEntries (runTrace new (mkCalls l)) =
      iterEntries (runTrace new (mkCalls l)) := by
  have hb : runTrace new (mkCalls l) = l := by
    have hrun := runTrace_mkCalls (m := new) (l := l) (fun p _ => rfl) h
    simpa [new] using hrun
  constructor
  · rw [hb, iterEntries_eq]
  · rw [intoIterEntries_eq, iterEntries_eq]

/-- Claim C8: if the factory passed to `cache(k, f)` panics, the panic
propagates to the caller, no entry for `k` is committed (the map is
unchanged and `k` stays absent, so no partially-initialized value can be
observed), the mutex is poisoned, and every subsequent `cache` or
`contains_key` call on the poisoned mutex fails fast (`lock().unwrap()`
panics) without touching the map. -/
theorem claim8_factory_panic (s : Poison.MState K V) (k k' : K) (e : String)
    (f g : Unit → Except String V) (hp : s.poisoned = false)
    (habs : contains_key s.map k = false) (hf : f () = Except.error e) :
    (Poison.cacheE s k f).1 = Except.error e ∧
    (Poison.cacheE s k f).2.map = s.map ∧
    contains_key (Poison.cacheE s k f).2.map k = false ∧
    (Poison.cacheE s k f).2.poisoned = true ∧
    (∀ s' : Poison.MState K V, s'.poisoned = true →
      Poison.cacheE s' k' g = (Except.error "PoisonError", s') ∧
      Poison.contains_keyE s' k' = (Except.error "PoisonError", s')) := by
  have hl : lookup s.map k = none := (contains_key_eq_false_iff _ _).mp habs
  have hrun := cacheE_panic hp hl hf
  refine ⟨by rw [hrun], by rw [hrun], by rw [hrun]; exact habs, by rw [hrun],
    fun s' hs' => ⟨cacheE_locked k' g hs', contains_keyE_locked k' hs'⟩⟩

/-- Claim C9: `cache_default k` behaves identically to `cache k` with the
factory fixed to the type's default-value producer: it returns the existing
value if `k` is present and otherwise inserts and returns `V`'s default
value, exactly as the spec-modelled protocol states. -/
theorem claim9_cache_default_refines [Inhabited V] (m : Map K V) (k : K) :
    cache_default m k = cache_default_spec m k := by
  unfold cache_default cache_default_spec cache
  cases lookup m k <;> rfl

/-- Claim C10: `from_iter` produces a map whose keys are pairwise distinct,
whose key set is exactly the key set of the input sequence, and which
associates every duplicated key with the value of the last pair carrying it
in the input. -/
theorem claim10_from_iter_last_wins (l : List (K × V)) (k : K) :
    ((from_iter l).map Prod.fst).Nodup ∧
    lookup (from_iter l) k = lastVal l k ∧
    (contains_key (from_iter l) k = true ↔ k ∈ l.map Prod.fst) := by
  refine ⟨from_iter_aux_keys_nodup l [] List.nodup_nil, lookup_from_iter l k, ?_⟩
  rw [contains_key]
  rw [lookup_from_iter l k]
  cases h : lastVal l k with
  | some v =>
    simp only [Option.isSome_some, true_iff]
    by_contra hk
    rw [(lastVal_eq_none_iff l k).mpr hk] at h
    exact Option.noConfusion h
  | none =>
    simp only [Option.isSome_none]
    constructor
    · intro hfalse
      exact absurd hfalse (by simp)
    · intro hmem
      exact absurd ((lastVal_eq_none_iff l k).mp h) (fun hn => hn hmem)

/-- Witness for C1: the spec's own example, `cache(k, ||5)` then
`cache(k, ||7)`, on the empty map. -/
theorem claim1_witness :
    contains_key ([] : Map Nat Nat) 0 = false ∧
    ((cache (cache ([] : Map Nat Nat) 0 (fun _ => 5)).2.1 0 (fun _ => 7)).1 =
        (cache ([] : Map Nat Nat) 0 (fun _ => 5)).1 ∧
      (cache ([] : Map Nat Nat) 0 (fun _ => 5)).1 = 5 ∧
      (cache (cache ([] : Map Nat Nat) 0 (fun _ => 5)).2.1 0
        (fun _ => 7)).2.2 = false ∧
      (Lib.cache (Lib.cache ([] : Map Nat Nat) 0 (fun _ => 5)).2.1 0
          (fun _ => 7)).1 =
        (Lib.cache ([] : Map Nat Nat) 0 (fun _ => 5)).1 ∧
      (Lib.cache ([] : Map Nat Nat) 0 (fun _ => 5)).1 = 5) :=
  ⟨rfl, claim1_idempotent_population [] 0 (fun _ => 5) (fun _ => 7) rfl⟩

/-- Witness for C2: three racing calls for the absent key `0`. -/
theorem claim2_witness :
    contains_key ([] : Map Nat Nat) 0 = false ∧ 1 ≤ 3 ∧
    (invokedCountFor ([] : Map Nat Nat) 0
      (List.replicate 3 (0, fun _ => 5)) = 1 ∧
    ∀ w ∈ (runResults ([] : Map Nat Nat)
      (List.replicate 3 (0, fun _ => 5))).1, w = 5) :=
  ⟨rfl, by decide,
    claim2_single_evaluation_under_race [] 0 (fun _ => 5) 3 rfl (by decide)⟩

/-- Witness for C3: a handle for key `0`, followed by two inserts of
distinct other keys. -/
theorem claim3_witness :
    (∀ c ∈ [((1 : Nat), fun (_ : Unit) => (7 : Nat)), (2, fun _ => 9)],
      c.1 ≠ 0) ∧
    lookup (runTrace (cache ([] : Map Nat Nat) 0 (fun _ => 5)).2.1
        [(1, fun _ => 7), (2, fun _ => 9)]) 0 =
      some ((cache ([] : Map Nat Nat) 0 (fun _ => 5)).1) :=
  ⟨by decide,
    claim3_handle_stability [] 0 (fun _ => 5) [(1, fun _ => 7), (2, fun _ => 9)]
      (by decide)⟩

/-- Witness for C5: an insert under key `0` leaves key `1` untouched. -/
theorem claim5_witness :
    (0 : Nat) ≠ 1 ∧
    (lookup (cache ([(1, 7)] : Map Nat Nat) 0 (fun _ => 9)).2.1 1 =
        lookup ([(1, 7)] : Map Nat Nat) 1 ∧
      lookup (Lib.cache ([(1, 7)] : Map Nat Nat) 0 (fun _ => 9)).2.1 1 =
        lookup ([(1, 7)] : Map Nat Nat) 1) :=
  ⟨by decide, claim5_key_isolation [(1, 7)] 0 1 (fun _ => 9) (by decide)⟩

/-- Witness for C6: key `0` absent from a fresh map after a call on key `1`,
and present right after `cache(0, ||5)`. -/
theorem claim6_witness :
    (∀ c ∈ [((1 : Nat), fun (_ : Unit) => (7 : Nat))], c.1 ≠ 0) ∧
    (contains_key (runTrace new [((1 : Nat), fun (_ : Unit) => (7 : Nat))])
        0 = false ∧
      contains_key (cache ([] : Map Nat Nat) 0 (fun _ => 5)).2.1 0 = true) :=
  ⟨by decide,
    claim6_contains_key_consistency 0 (fun _ => 5) [] [(1, fun _ => 7)]
      (by decide)⟩

/-- Witness for C7: the two-entry map of the repository's `iter` test. -/
theorem claim7_witness :
    (([((0 : Nat), (5 : Nat)), (1, 7)].map Prod.fst).Nodup) ∧
    (List.Perm (iterEntries (runTrace new (mkCalls [((0 : Nat), (5 : Nat)), (1, 7)])))
        [(0, 5), (1, 7)] ∧
      intoIterEntries (runTrace new (mkCalls [((0 : Nat), (5 : Nat)), (1, 7)])) =
        iterEntries (runTrace new (mkCalls [((0 : Nat), (5 : Nat)), (1, 7)]))) :=
  ⟨by decide, claim7_iteration_completeness [(0, 5), (1, 7)] (by decide)⟩

/-- Witness for C8: a factory that panics with "boom" on the fresh,
unpoisoned state. -/
theorem claim8_witness :
    (Poison.MState.poisoned ⟨([] : Map Nat Nat), false⟩ = false ∧
      contains_key (Poison.MState.map ⟨([] : Map Nat Nat), false⟩) 0 = false ∧
      (fun (_ : Unit) => (Except.error "boom" : Except String Nat)) () =
        Except.error "boom") ∧
    ((Poison.cacheE ⟨([] : Map Nat Nat), false⟩ 0
        (fun _ => Except.error "boom")).1 = Except.error "boom" ∧
      (Poison.cacheE ⟨([] : Map Nat Nat), false⟩ 0
        (fun _ => Except.error "boom")).2.map = [] ∧
      contains_key (Poison.cacheE ⟨([] : Map Nat Nat), false⟩ 0
        (fun _ => Except.error "boom")).2.map 0 = false ∧
      (Poison.cacheE ⟨([] : Map Nat Nat), false⟩ 0
        (fun _ => Except.error "boom")).2.poisoned = true ∧
      (∀ s' : Poison.MState Nat Nat, s'.poisoned = true →
        Poison.cacheE s' 1 (fun _ => Except.ok 3) =
          (Except.error "PoisonError", s') ∧
        Poison.contains_keyE s' 1 = (Except.error "PoisonError", s'))) :=
  ⟨⟨rfl, rfl, rfl⟩,
    claim8_factory_panic ⟨[], false⟩ 0 1 "boom" (fun _ => Except.error "boom")
      (fun _ => Except.ok 3) rfl rfl rfl⟩

end CacheMap
